import Mathlib

/-
  Shallow embedding of `src/libtiled/propertytype.cpp` (Tiled's custom
  property type system): the `PropertyType` hierarchy (enum and class
  kinds), the `PropertyTypes` registry and its two-phase load, and the
  per-kind value conversions.

  Modelling conventions:
  * `QString` is modelled as `List Char` (so Qt's split/join/append are
    plain list operations).
  * `QVariant` is modelled by the inductive `Variant`; the
    `PropertyValue { value, typeId }` payload is the `pval` constructor.
  * `QVariantMap` / `QMap<QString, QVariant>` are association lists with
    unique keys; `qmapInsert` replaces an existing key in place and
    appends a fresh key.  (QMap iterates in key-sorted order; none of the
    verified claims observes the iteration order.)
  * C++ `int` is modelled as `Int`; bitwise `&`, `|`, `<<` on the flag
    masks use `Int.land` / `Int.lor` on `Int.ofNat` shifts (the claims
    only exercise in-range, non-negative masks).
  * The process-wide static counter `PropertyType::nextId` is threaded
    explicitly through `createFromVariant` and `loadFrom`.
  * The recursive conversions (`ClassPropertyType::toPropertyValue`,
    `canAddMemberOfType`, dependency resolution) can diverge in C++ on
    cyclic data (see the source's two-step-load comment); they take an
    explicit fuel parameter here.
  * Code of the repository that is not part of `propertytype.cpp`
    (the `ExportContext` conversions of `properties.cpp`,
    `PropertyValue::type()`, the auto-assignment of fresh ids) is
    modelled from the specification; each such definition carries a
    `Modelled from the spec:` doc comment.
-/

namespace Tiled

/-- Qt `QString`, modelled as a list of characters. -/
abbrev QString := List Char

/-- Qt `QVariant` restricted to the kinds this core manipulates: invalid
(default-constructed), bool, int, string, list, string-keyed map, and the
custom `PropertyValue { value, typeId }` payload. -/
inductive Variant where
  | invalid
  | vBool (b : Bool)
  | vInt (i : Int)
  | vString (s : QString)
  | vList (xs : List Variant)
  | vMap (m : List (QString × Variant))
  | pval (v : Variant) (typeId : Int)

/-- QMap lookup: value for the key, default-constructed (invalid) QVariant
when the key is absent. -/
def qmapValue (m : List (QString × Variant)) (k : QString) : Variant :=
  match m with
  | [] => .invalid
  | (k', v) :: rest => if k' = k then v else qmapValue rest k

/-- QMap lookup with an explicit default (`QMap::value(key, default)`). -/
def qmapValueD (m : List (QString × Variant)) (k : QString) (d : Variant) : Variant :=
  match m with
  | [] => d
  | (k', v) :: rest => if k' = k then v else qmapValueD rest k d

/-- QMap insert: replaces the value when the key exists, otherwise adds
the entry. -/
def qmapInsert (m : List (QString × Variant)) (k : QString) (v : Variant) :
    List (QString × Variant) :=
  match m with
  | [] => [(k, v)]
  | (k', v') :: rest =>
    if k' = k then (k', v) :: rest else (k', v') :: qmapInsert rest k v

/-- QVariant::isValid — false only for the default-constructed variant. -/
def Variant.isValid : Variant → Bool
  | .invalid => false
  | _ => true

/-- QVariant::toInt. Numeric-string parsing is not modelled (no verified
claim exercises it). -/
def Variant.toInt : Variant → Int
  | .vInt i => i
  | .vBool b => if b then 1 else 0
  | _ => 0

/-- QVariant::toString for the modelled kinds. -/
def Variant.toQString : Variant → QString
  | .vString s => s
  | .vInt i => (toString i).toList
  | .vBool b => if b then "true".toList else "false".toList
  | _ => []

/-- QVariant::toBool. -/
def Variant.toBool : Variant → Bool
  | .vBool b => b
  | .vInt i => if i = 0 then false else true
  | .vString s =>
    if s = [] ∨ s = "0".toList ∨ s = "false".toList then false else true
  | _ => false

/-- QVariant::toMap — the held map, or an empty map for every other kind. -/
def Variant.toMap : Variant → List (QString × Variant)
  | .vMap m => m
  | _ => []

/-- QVariant::toList — the held list, or an empty list otherwise. -/
def Variant.toVariantList : Variant → List Variant
  | .vList xs => xs
  | _ => []

/-- QVariant::toStringList — a held list converted element-wise, a held
string as a singleton, empty otherwise. -/
def Variant.toStringList : Variant → List QString
  | .vList xs => xs.map Variant.toQString
  | .vString s => [s]
  | _ => []

/-- The registered meta-type id of `PropertyValue` (`propertyValueId()`);
an arbitrary distinct code in this model. -/
def propertyValueId : Int := 1024

/-- QVariant::userType — a distinct meta-type code per kind. -/
def Variant.userType : Variant → Int
  | .invalid => 0
  | .vBool _ => 1
  | .vInt _ => 2
  | .vString _ => 10
  | .vList _ => 9
  | .vMap _ => 8
  | .pval _ _ => propertyValueId

/-- EnumPropertyType::StorageType. -/
inductive StorageType where
  | IntValue
  | StringValue
deriving DecidableEq

/-- The kind tag `PropertyType::Type`. -/
inductive PType where
  | PT_Invalid
  | PT_Class
  | PT_Enum
deriving DecidableEq

/-- EnumPropertyType's own fields. -/
structure EnumData where
  storageType : StorageType
  values : List QString
  valuesAsFlags : Bool

/-- ClassPropertyType's own field: the ordered member map. -/
structure ClassData where
  members : List (QString × Variant)

/-- The concrete subclass payload (the C++ virtual hierarchy as a closed
sum: every constructed `PropertyType` is an enum or a class). -/
inductive PTKind where
  | ptEnum (e : EnumData)
  | ptClass (c : ClassData)

/-- PropertyType: common identity plus the subclass payload. -/
structure PropertyType where
  id : Int
  name : QString
  kind : PTKind

/-- The kind tag of a constructed type (`PropertyType::type`). -/
def PropertyType.type (t : PropertyType) : PType :=
  match t.kind with
  | .ptEnum _ => .PT_Enum
  | .ptClass _ => .PT_Class

/-- PropertyTypes registry: the owned sequence `mTypes`. -/
structure PropertyTypes where
  mTypes : List PropertyType

/-- ExportValue: the interchange-boundary record. -/
structure ExportValue where
  value : Variant := .invalid
  typeName : QString := []
  propertyTypeName : QString := []

/-- ExportContext: constructed from a registry and a path. -/
structure ExportContext where
  types : PropertyTypes
  path : QString

/-- PropertyTypes::findTypeById — linear scan, first match. -/
def PropertyTypes.findTypeById (reg : PropertyTypes) (typeId : Int) : Option PropertyType :=
  reg.mTypes.find? (fun t => decide (t.id = typeId))

/-- PropertyTypes::findTypeByName — linear scan, first match. -/
def PropertyTypes.findTypeByName (reg : PropertyTypes) (name : QString) : Option PropertyType :=
  reg.mTypes.find? (fun t => decide (t.name = name))

/-- PropertyTypes::count — number of owned types of the given kind. -/
def PropertyTypes.count (reg : PropertyTypes) (type : PType) : Nat :=
  reg.mTypes.countP (fun t => decide (t.type = type))

/-- PropertyType::wrap — tag a raw value with this type's id. -/
def PropertyType.wrap (t : PropertyType) (value : Variant) : Variant :=
  .pval value t.id

/-- Modelled from the spec: `ExportContext::toExportValue` of
`properties.cpp` (not under `src/`) — the host's generic conversion,
which returns the modelled primitive and composite values unchanged,
stamped with an interchange type name and no `propertyTypeName`.
(Recursive unwrapping of custom-typed payloads is not exercised by the
verified claims.) -/
def ExportContext.toExportValue (_ctx : ExportContext) (v : Variant) : ExportValue :=
  { value := v
    typeName :=
      match v with
      | .vBool _ => "bool".toList
      | .vInt _ => "int".toList
      | .vString _ => "string".toList
      | .vMap _ => "class".toList
      | _ => []
    propertyTypeName := [] }

/-- Modelled from the spec: the `ExportContext::toPropertyValue(value,
hintTypeId)` overload of `properties.cpp` (not under `src/`) — conversion
of a primitive guided by the declared member's meta-type; for the
modelled value kinds it returns the value unchanged. -/
def ExportContext.toPropertyValueHinted (_ctx : ExportContext) (v : Variant)
    (_hint : Int) : Variant :=
  v

/-- PropertyType::toExportValue base behavior: delegate to the generic
conversion, then stamp the result with this type's name. -/
def PropertyType.baseToExportValue (t : PropertyType) (ctx : ExportContext)
    (value : Variant) : ExportValue :=
  let result := ctx.toExportValue value
  { result with propertyTypeName := t.name }

/-- PropertyType::typeFromString (the empty check is the backward
compatibility shim for records that omitted the field). -/
def PropertyType.typeFromString (s : QString) : PType :=
  if s = "enum".toList ∨ s = [] then .PT_Enum
  else if s = "class".toList then .PT_Class
  else .PT_Invalid

/-- PropertyType::typeToString. -/
def PropertyType.typeToString : PType → QString
  | .PT_Class => "class".toList
  | .PT_Enum => "enum".toList
  | .PT_Invalid => "invalid".toList

/-- EnumPropertyType::storageTypeFromString ("int" maps to IntValue,
anything else to StringValue). -/
def storageTypeFromString (s : QString) : StorageType :=
  if s = "int".toList then .IntValue else .StringValue

/-- EnumPropertyType::storageTypeToString. -/
def storageTypeToString : StorageType → QString
  | .IntValue => "int".toList
  | .StringValue => "string".toList

/-- QString split on a comma (before dropping empty segments): the C++
code splits with `Qt::SkipEmptyParts`; this is the raw segmentation. -/
def splitComma : QString → List QString
  | [] => [[]]
  | c :: rest =>
    if c = ',' then [] :: splitComma rest
    else
      match splitComma rest with
      | [] => [[c]]
      | s :: ss => (c :: s) :: ss

/-- Split on a comma dropping empty segments (`Qt::SkipEmptyParts`). -/
def splitSkipEmpty (s : QString) : List QString :=
  (splitComma s).filter (fun p => ¬(p = []))

/-- First index of a string in a list (`indexOf`, which returns -1 in C++
when absent, modelled as `none`). -/
def idxOf? (values : List QString) (s : QString) : Option Nat :=
  match values with
  | [] => none
  | v :: rest => if v = s then some 0 else (idxOf? rest s).map (· + 1)

/-- The flag-reconstruction loop of EnumPropertyType::toPropertyValue:
OR `1 << index` for each segment, aborting (`none`) at the first
unrecognized flag name. -/
def accumFlags (values : List QString) : List QString → Int → Option Int
  | [], flags => some flags
  | sv :: rest, flags =>
    match idxOf? values sv with
    | none => none
    | some index => accumFlags values rest (Int.lor flags (Int.ofNat (1 <<< index)))

/-- The flag-export loop of EnumPropertyType::toExportValue: comma-join
the names whose bit is set, in ascending index order. -/
def flagsToExportString (values : List QString) (intValue : Int) : QString :=
  (List.range values.length).foldl
    (fun stringValue i =>
      if Int.land intValue (Int.ofNat (1 <<< i)) ≠ 0 then
        (if stringValue = [] then stringValue else stringValue ++ [',']) ++
          values.getD i []
      else stringValue)
    []

/-- Per-kind PropertyType::toExportValue (the virtual dispatch as a match
on the kind): the enum override translates int values to names when
storing as string; the class override converts each member through the
generic conversion; both delegate to the base conversion. -/
def PropertyType.toExportValue (t : PropertyType) (ctx : ExportContext)
    (value : Variant) : ExportValue :=
  match t.kind with
  | .ptEnum e =>
    match value with
    | .vInt intValue =>
      if e.storageType = .StringValue then
        if e.valuesAsFlags then
          t.baseToExportValue ctx (.vString (flagsToExportString e.values intValue))
        else if 0 ≤ intValue ∧ intValue < (e.values.length : Int) then
          t.baseToExportValue ctx (.vString (e.values.getD intValue.toNat []))
        else
          t.baseToExportValue ctx (.vInt intValue)
      else
        t.baseToExportValue ctx (.vInt intValue)
    | v => t.baseToExportValue ctx v
  | .ptClass _ =>
    let properties := value.toMap
    let properties := properties.map (fun kv => (kv.1, (ctx.toExportValue kv.2).value))
    t.baseToExportValue ctx (.vMap properties)

/-- Per-kind PropertyType::toPropertyValue. The enum override converts
string values back to an index (or a flag mask); the class override
converts each member present in the declared member map, recursing into
nested custom types found through the context's registry. The recursion
can diverge in C++ on cyclic class data, hence the fuel. -/
def PropertyType.toPropertyValue (fuel : Nat) (t : PropertyType) (ctx : ExportContext)
    (value : Variant) : Variant :=
  match t.kind with
  | .ptEnum e =>
    match value with
    | .vString stringValue =>
      if e.valuesAsFlags then
        match accumFlags e.values (splitSkipEmpty stringValue) 0 with
        | none => t.wrap (.vString stringValue)
        | some flags => t.wrap (.vInt flags)
      else
        match idxOf? e.values stringValue with
        | some index => t.wrap (.vInt (Int.ofNat index))
        | none => t.wrap (.vString stringValue)
    | v => t.wrap v
  | .ptClass c =>
    let properties := value.toMap
    let properties := properties.map (fun kv =>
      let classMember := qmapValue c.members kv.1
      if classMember.isValid = false then kv
      else
        let propertyValue := ctx.toPropertyValueHinted kv.2 classMember.userType
        let propertyValue :=
          match classMember with
          | .pval _ typeId =>
            match ctx.types.findTypeById typeId with
            | some propertyType =>
              match fuel with
              | 0 => propertyValue
              | fuel' + 1 => propertyType.toPropertyValue fuel' ctx propertyValue
            | none => propertyValue
          | _ => propertyValue
        (kv.1, propertyValue))
    t.wrap (.vMap properties)
termination_by structural fuel

/-- PropertyType::defaultValue (virtual): integer 0 for enums, an empty
mapping for classes. -/
def PropertyType.defaultValue (t : PropertyType) : Variant :=
  match t.kind with
  | .ptEnum _ => .vInt 0
  | .ptClass _ => .vMap []

/-- EnumPropertyType::fromVariant: populate storageType, values and
valuesAsFlags (defaulting to false) from the record. -/
def enumFromVariant (t : PropertyType) (variant : List (QString × Variant)) :
    PropertyType :=
  let e : EnumData :=
    { storageType := storageTypeFromString ((qmapValue variant "storageType".toList).toQString)
      values := (qmapValue variant "values".toList).toStringList
      valuesAsFlags := (qmapValueD variant "valuesAsFlags".toList (.vBool false)).toBool }
  { t with kind := .ptEnum e }

/-- ClassPropertyType::fromVariant: parse the members list into the member
map, keyed by each member record's name, storing the raw record as a
first-pass placeholder. -/
def classFromVariant (t : PropertyType) (variant : List (QString × Variant)) :
    PropertyType :=
  let membersList := (qmapValue variant "members".toList).toVariantList
  let members := membersList.foldl
    (fun members member =>
      let map := member.toMap
      let name := (qmapValue map "name".toList).toQString
      qmapInsert members name (.vMap map))
    []
  { t with kind := .ptClass ⟨members⟩ }

/-- PropertyType::fromVariant (virtual dispatch on the kind). -/
def PropertyType.fromVariant (t : PropertyType) (variant : List (QString × Variant)) :
    PropertyType :=
  match t.kind with
  | .ptEnum _ => enumFromVariant t variant
  | .ptClass _ => classFromVariant t variant

/-- PropertyType::createFromVariant, with the process-wide static counter
`nextId` threaded explicitly: reads `id`, `name`, `type` from the record,
switches on the parsed kind (constructing nothing for Invalid), populates
the constructed type via `fromVariant`, and advances the counter with
`max nextId id`. The source's trailing `if (propertyType)` block is
inlined into the two non-null switch branches. -/
def PropertyType.createFromVariant (nextId : Int) (variant : List (QString × Variant)) :
    Option PropertyType × Int :=
  let id := (qmapValue variant "id".toList).toInt
  let name := (qmapValue variant "name".toList).toQString
  match PropertyType.typeFromString ((qmapValue variant "type".toList).toQString) with
  | .PT_Invalid => (none, nextId)
  | .PT_Class =>
    (some (PropertyType.fromVariant { id := id, name := name, kind := .ptClass ⟨[]⟩ } variant),
     max nextId id)
  | .PT_Enum =>
    (some (PropertyType.fromVariant
            { id := id, name := name, kind := .ptEnum ⟨.StringValue, [], false⟩ } variant),
     max nextId id)

/-- Modelled from the spec: `ExportContext::toPropertyValue(ExportValue)`
of `properties.cpp` (not under `src/`) — the generic conversion of the
payload by `typeName` (identity for the modelled kinds), then, when the
record names a custom property type, a lookup of `propertyTypeName` in
the context's registry and delegation to that type's own
`toPropertyValue`. -/
def ExportContext.toPropertyValueOfExport (fuel : Nat) (ctx : ExportContext)
    (ev : ExportValue) : Variant :=
  if ev.propertyTypeName = [] then ev.value
  else
    match ctx.types.findTypeByName ev.propertyTypeName with
    | some t => t.toPropertyValue fuel ctx ev.value
    | none => ev.value

/-- PropertyType::resolveDependencies (virtual; no-op except for classes):
second load phase — reinterpret each member's raw placeholder record as
an `ExportValue` and ask the context to produce the resolved value. -/
def PropertyType.resolveDependencies (fuel : Nat) (t : PropertyType)
    (ctx : ExportContext) : PropertyType :=
  match t.kind with
  | .ptEnum _ => t
  | .ptClass c =>
    let members := c.members.map (fun kv =>
      let map := kv.2.toMap
      let ev : ExportValue :=
        { value := qmapValue map "value".toList
          typeName := (qmapValue map "type".toList).toQString
          propertyTypeName := (qmapValue map "propertyType".toList).toQString }
      (kv.1, ctx.toPropertyValueOfExport fuel ev))
    { t with kind := .ptClass ⟨members⟩ }

/-- The second loop of PropertyTypes::loadFrom: resolve each owned type in
insertion order. The context holds a reference to the registry, so while
resolving, the already-resolved prefix and the still-raw suffix are both
visible — modelled by rebuilding the context at each step. -/
def resolveLoop (fuel : Nat) (path : QString) :
    List PropertyType → List PropertyType → List PropertyType
  | done, [] => done
  | done, t :: rest =>
    let ctx : ExportContext := ⟨⟨done ++ t :: rest⟩, path⟩
    resolveLoop fuel path (done ++ [t.resolveDependencies fuel ctx]) rest

/-- The first loop of PropertyTypes::loadFrom: run the factory on each
record in input order, keeping the non-null results and threading the
static id counter. -/
def parseRecords (nextId : Int) : List Variant → List PropertyType × Int
  | [] => ([], nextId)
  | typeValue :: rest =>
    match PropertyType.createFromVariant nextId typeValue.toMap with
    | (some t, n) =>
      let tail := parseRecords n rest
      (t :: tail.1, tail.2)
    | (none, n) => parseRecords n rest

/-- PropertyTypes::loadFrom: clear the previously owned types (the `_reg`
argument is discarded), add every record the factory accepts in input
order, then resolve dependencies on every owned type. -/
def PropertyTypes.loadFrom (_reg : PropertyTypes) (nextId : Int) (fuel : Nat)
    (list : List Variant) (path : QString) : PropertyTypes × Int :=
  let parsed := parseRecords nextId list
  (⟨resolveLoop fuel path [] parsed.1⟩, parsed.2)

/-- ClassPropertyType::canAddMemberOfType: false for the class itself
(pointer identity, modelled as id equality), true for non-class
candidates, and for a class candidate a recursive check of every member
whose value is wrapped with a nested property type. `PropertyValue::type()`
is not under `src/`; modelled from the spec as the registry lookup of the
wrapped type id. The C++ recursion can diverge on cyclic member data,
hence the fuel. -/
def PropertyType.canAddMemberOfType (reg : PropertyTypes) :
    Nat → PropertyType → PropertyType → Bool
  | fuel, self, candidate =>
    if candidate.id = self.id then false
    else
      match candidate.kind with
      | .ptEnum _ => true
      | .ptClass c =>
        match fuel with
        | 0 => true
        | fuel' + 1 =>
          c.members.all (fun member =>
            match member.2 with
            | .pval _ typeId =>
              match reg.findTypeById typeId with
              | some propertyType =>
                PropertyType.canAddMemberOfType reg fuel' self propertyType
              | none => true
            | _ => true)

/-- Modelled from the spec: the auto-assignment of a fresh id (not under
`src/`) — the counter always holds the maximum id ever assigned, so a
fresh assignment takes the next value and advances the counter. -/
def autoAssignId (nextId : Int) : Int × Int :=
  (nextId + 1, nextId + 1)

/-- Transitive class-membership reachability through the registry: the
type contains (directly or through nested class members) a member whose
wrapped type id resolves to a type with id `selfId`. The Nat counts the
member-hops of the witnessing chain. -/
inductive ReachesMemberTyped (reg : PropertyTypes) (selfId : Int) :
    PropertyType → Nat → Prop where
  | direct (t : PropertyType) (c : ClassData) (k : QString) (v : Variant)
      (typeId : Int) (u : PropertyType) :
      t.kind = .ptClass c → (k, .pval v typeId) ∈ c.members →
      reg.findTypeById typeId = some u → u.id = selfId →
      ReachesMemberTyped reg selfId t 1
  | step (t : PropertyType) (c : ClassData) (k : QString) (v : Variant)
      (typeId : Int) (u : PropertyType) (n : Nat) :
      t.kind = .ptClass c → (k, .pval v typeId) ∈ c.members →
      reg.findTypeById typeId = some u →
      ReachesMemberTyped reg selfId u n →
      ReachesMemberTyped reg selfId t (n + 1)

/-- Look up every segment's index in `values`: `none` when any lookup
fails, otherwise the list of all found indices in segment order.
Statement-side description of the flag-reconstruction loop. -/
def lookupAll (values : List QString) : List QString → Option (List Nat)
  | [] => some []
  | s :: rest =>
    match idxOf? values s, lookupAll values rest with
    | some i, some is => some (i :: is)
    | _, _ => none

/-- The member map of a class-kind type (empty for enums); statement-side
accessor. -/
def PropertyType.classMembers (t : PropertyType) : List (QString × Variant) :=
  match t.kind with
  | .ptClass c => c.members
  | .ptEnum _ => []

/-- The tail of a comma-join: one separator before each name. Proof-side
helper for relating the export fold to the import split. -/
def preC : List QString → QString
  | [] => []
  | n :: rest => [','] ++ n ++ preC rest

/-- Comma-join of a list of names (the specification-side description of
the string built by the flag-export loop). -/
def joinC : List QString → QString
  | [] => []
  | n :: rest => n ++ preC rest

/-- An empty export context for concrete instances. -/
def emptyCtx : ExportContext := ⟨⟨[]⟩, []⟩

/-- Concrete flags enum with values A, B (string storage) for concrete
instances. -/
def sampleEnumAB : PropertyType :=
  { id := 5, name := "flagsEnum".toList
    kind := .ptEnum ⟨.StringValue, ["A".toList, "B".toList], true⟩ }

/-- Concrete non-flags enum with the duplicated name A at indices 0 and 1. -/
def dupEnum : PropertyType :=
  { id := 2, name := "dup".toList
    kind := .ptEnum ⟨.StringValue, ["A".toList, "A".toList], false⟩ }

/-- Concrete non-flags enum with distinct values A, B. -/
def idxEnum : PropertyType :=
  { id := 4, name := "idx".toList
    kind := .ptEnum ⟨.StringValue, ["A".toList, "B".toList], false⟩ }

/-- Concrete flags enum whose single value name contains a comma. -/
def commaEnum : PropertyType :=
  { id := 3, name := "ce".toList
    kind := .ptEnum ⟨.StringValue, ["A,B".toList], true⟩ }

/-- Concrete class with one declared member `a`. -/
def sampleClassT : PropertyType :=
  { id := 9, name := "T".toList, kind := .ptClass ⟨[("a".toList, .vInt 0)]⟩ }

/-- Concrete registry for membership-cycle checks: class `T` (id 10),
class `A` (id 11) with a member wrapped with T's id, class `B` (id 12)
with a member wrapped with A's id, and enum `E` (id 13). -/
def cycT : PropertyType :=
  { id := 10, name := "Tc".toList, kind := .ptClass ⟨[]⟩ }

/-- Class `A` of the cycle-check registry: one member typed as `T`. -/
def cycA : PropertyType :=
  { id := 11, name := "Ac".toList
    kind := .ptClass ⟨[("m".toList, .pval (.vMap []) 10)]⟩ }

/-- Class `B` of the cycle-check registry: one member typed as `A`. -/
def cycB : PropertyType :=
  { id := 12, name := "Bc".toList
    kind := .ptClass ⟨[("m".toList, .pval (.vMap []) 11)]⟩ }

/-- Enum `E` of the cycle-check registry. -/
def cycE : PropertyType :=
  { id := 13, name := "Ec".toList
    kind := .ptEnum ⟨.StringValue, [], false⟩ }

/-- The cycle-check registry. -/
def cycReg : PropertyTypes := ⟨[cycT, cycA, cycB, cycE]⟩

/-- Serialized record of class `A` (no members), used to demonstrate
forward-reference resolution. -/
def sampleRecA : Variant :=
  .vMap [("type".toList, .vString "class".toList), ("id".toList, .vInt 1),
         ("name".toList, .vString "A".toList), ("members".toList, .vList [])]

/-- Serialized record of class `B` whose member `m` is typed by the class
named A, placed *before* A's record in the load list. -/
def sampleRecB : Variant :=
  .vMap [("type".toList, .vString "class".toList), ("id".toList, .vInt 2),
         ("name".toList, .vString "B".toList),
         ("members".toList, .vList
           [.vMap [("name".toList, .vString "m".toList),
                   ("type".toList, .vString "class".toList),
                   ("value".toList, .vMap []),
                   ("propertyType".toList, .vString "A".toList)]])]

/-- A record with an unknown (non-empty) type string. -/
def badRec : List (QString × Variant) :=
  [("type".toList, .vString "widget".toList), ("id".toList, .vInt 3)]

/-- A record with the type field missing and id 7. -/
def rec7 : List (QString × Variant) :=
  [("id".toList, .vInt 7), ("name".toList, .vString "E".toList)]

/-- The factory leaves the counter unchanged and returns nothing exactly
on records whose type string parses to Invalid. -/
theorem createFromVariant_invalid_eq (n : Int) (variant : List (QString × Variant))
    (h : PropertyType.typeFromString ((qmapValue variant "type".toList).toQString) =
      .PT_Invalid) :
    PropertyType.createFromVariant n variant = (none, n) := by
  simp only [PropertyType.createFromVariant, h]

/-- The factory never lowers the counter. -/
theorem le_createFromVariant_snd (n : Int) (variant : List (QString × Variant)) :
    n ≤ (PropertyType.createFromVariant n variant).2 := by
  unfold PropertyType.createFromVariant
  split
  · exact le_refl n
  · exact le_max_left _ _
  · exact le_max_left _ _

/-- When the factory constructs a type, the counter becomes the max of the
old counter and the record's id. -/
theorem createFromVariant_some_snd (n : Int) (variant : List (QString × Variant))
    (h : (PropertyType.createFromVariant n variant).1.isSome = true) :
    (PropertyType.createFromVariant n variant).2 =
      max n ((qmapValue variant "id".toList).toInt) := by
  unfold PropertyType.createFromVariant at h ⊢
  split at h
  · simp at h
  · rfl
  · rfl

/-- Which option the factory returns does not depend on the counter. -/
theorem createFromVariant_fst_counter (n m : Int) (variant : List (QString × Variant)) :
    (PropertyType.createFromVariant n variant).1 =
      (PropertyType.createFromVariant m variant).1 := by
  unfold PropertyType.createFromVariant
  split <;> rfl

/-- The factory accepts a record exactly when its type string does not
parse to Invalid. -/
theorem createFromVariant_isSome_iff (n : Int) (variant : List (QString × Variant)) :
    (PropertyType.createFromVariant n variant).1.isSome = true ↔
      PropertyType.typeFromString ((qmapValue variant "type".toList).toQString) ≠
        .PT_Invalid := by
  unfold PropertyType.createFromVariant
  split
  all_goals rename_i heq
  · exact ⟨fun h => by simp at h, fun h => absurd heq h⟩
  · exact iff_of_true rfl (fun hc => by rw [heq] at hc; cases hc)
  · exact iff_of_true rfl (fun hc => by rw [heq] at hc; cases hc)

/-- The parse loop never lowers the counter. -/
theorem parseRecords_snd_mono (recs : List Variant) :
    ∀ n : Int, n ≤ (parseRecords n recs).2 := by
  induction recs with
  | nil => intro n; exact le_refl n
  | cons r rest ih =>
    intro n
    have hstep := le_createFromVariant_snd n r.toMap
    rcases hcv : PropertyType.createFromVariant n r.toMap with ⟨o, n1⟩
    rw [hcv] at hstep
    cases o with
    | some t => simpa [parseRecords, hcv] using le_trans hstep (ih n1)
    | none => simpa [parseRecords, hcv] using le_trans hstep (ih n1)

/-- C9: typeFromString and typeToString form a two-way mapping: "class"
maps to Class, "enum" and the empty string map to Enum (the empty string
is accepted on input only), any other string maps to Invalid; typeToString
yields "class", "enum" and "invalid", and never produces the empty
string. -/
theorem C9_theorem :
    (∀ s : QString,
      (s = "class".toList → PropertyType.typeFromString s = .PT_Class)
      ∧ (s = "enum".toList → PropertyType.typeFromString s = .PT_Enum)
      ∧ (s = [] → PropertyType.typeFromString s = .PT_Enum)
      ∧ (s ≠ "class".toList → s ≠ "enum".toList → s ≠ [] →
          PropertyType.typeFromString s = .PT_Invalid))
    ∧ PropertyType.typeToString .PT_Class = "class".toList
    ∧ PropertyType.typeToString .PT_Enum = "enum".toList
    ∧ PropertyType.typeToString .PT_Invalid = "invalid".toList
    ∧ (∀ k, PropertyType.typeToString k ≠ []) := by
  refine ⟨fun s => ⟨?_, ?_, ?_, ?_⟩, rfl, rfl, rfl, ?_⟩
  · rintro rfl; decide
  · rintro rfl; decide
  · rintro rfl; decide
  · intro h1 h2 h3
    unfold PropertyType.typeFromString
    rw [if_neg (fun hor => Or.elim hor h2 h3), if_neg h1]
  · intro k; cases k <;> decide

/-- C9 witness: an unrecognized non-empty string parses to Invalid and
the empty string parses to Enum. -/
theorem C9_witness :
    PropertyType.typeFromString "widget".toList = .PT_Invalid
    ∧ PropertyType.typeFromString [] = .PT_Enum :=
  ⟨(C9_theorem.1 "widget".toList).2.2.2 (by decide) (by decide) (by decide),
   (C9_theorem.1 []).2.2.1 rfl⟩

/-- C4 as stated is false on the code: a record whose type string is the
unknown (non-empty) string "widget" does not dispatch to the Enum
constructor — the factory returns nothing. -/
theorem C4_counterexample :
    PropertyType.typeFromString ((qmapValue badRec "type".toList).toQString) = .PT_Invalid
    ∧ (PropertyType.createFromVariant 0 badRec).1 = none := by
  constructor
  · decide
  · rfl

/-- C4 (amended): createFromVariant dispatches to the Enum constructor
when the record's type string is missing or empty (the backward
compatibility default); an unknown non-empty type string resolves to
Invalid, in which case the factory returns nothing, the record is skipped
and the load continues with the remaining records. -/
theorem C4_theorem (variant : List (QString × Variant)) (nextId : Int) :
    (PropertyType.typeFromString ((qmapValue variant "type".toList).toQString) =
        .PT_Invalid →
      (PropertyType.createFromVariant nextId variant).1 = none)
    ∧ ((qmapValue variant "type".toList).toQString = [] →
      ∃ t, (PropertyType.createFromVariant nextId variant).1 = some t
        ∧ t.type = .PT_Enum)
    ∧ (PropertyType.typeFromString ((qmapValue variant "type".toList).toQString) =
        .PT_Invalid →
      ∀ (fuel : Nat) (pre post : List Variant) (path : QString) (reg : PropertyTypes),
        PropertyTypes.loadFrom reg nextId fuel (pre ++ .vMap variant :: post) path =
          PropertyTypes.loadFrom reg nextId fuel (pre ++ post) path) := by
  refine ⟨?_, ?_, ?_⟩
  · intro h
    rw [createFromVariant_invalid_eq nextId variant h]
  · intro h
    have htype : PropertyType.typeFromString ((qmapValue variant "type".toList).toQString) =
        .PT_Enum := by
      rw [h]; rfl
    unfold PropertyType.createFromVariant
    rw [htype]
    refine ⟨_, rfl, ?_⟩
    unfold PropertyType.fromVariant enumFromVariant PropertyType.type
    rfl
  · intro h fuel pre post path reg
    have hskip : ∀ m : Int, parseRecords m (pre ++ .vMap variant :: post) =
        parseRecords m (pre ++ post) := by
      induction pre with
      | nil =>
        intro m
        have : (Variant.vMap variant).toMap = variant := rfl
        simp only [List.nil_append, parseRecords, this,
          createFromVariant_invalid_eq m variant h]
      | cons r rest ih =>
        intro m
        simp only [List.cons_append, parseRecords]
        rcases hcv : PropertyType.createFromVariant m r.toMap with ⟨o, n1⟩
        cases o <;> simp [ih n1]
    unfold PropertyTypes.loadFrom
    rw [hskip nextId]

/-- C4 witness: the unknown-type record is skipped by the factory while a
record with a missing type field constructs an Enum-kind type. -/
theorem C4_witness :
    (PropertyType.createFromVariant 0 badRec).1 = none
    ∧ ∃ t, (PropertyType.createFromVariant 0 rec7).1 = some t ∧ t.type = .PT_Enum := by
  refine ⟨(C4_theorem badRec 0).1 (by decide), (C4_theorem rec7 0).2.1 rfl⟩

/-- C6: the id counter never decreases; a call that constructs a type
advances the counter to at least the record's id; the counter is
non-decreasing across repeated createFromVariant calls; and after loading
a record with id 7 the next auto-assigned id is at least 8. -/
theorem C6_theorem (n : Int) (variant : List (QString × Variant)) :
    n ≤ (PropertyType.createFromVariant n variant).2
    ∧ ((PropertyType.createFromVariant n variant).1.isSome = true →
        (qmapValue variant "id".toList).toInt ≤
          (PropertyType.createFromVariant n variant).2)
    ∧ (∀ recs : List Variant, n ≤ (parseRecords n recs).2)
    ∧ ((qmapValue variant "id".toList).toInt = 7 →
        (PropertyType.createFromVariant n variant).1.isSome = true →
        8 ≤ (autoAssignId (PropertyType.createFromVariant n variant).2).1) := by
  refine ⟨le_createFromVariant_snd n variant, ?_, fun recs => parseRecords_snd_mono recs n, ?_⟩
  · intro h
    rw [createFromVariant_some_snd n variant h]
    exact le_max_right _ _
  · intro hid hsome
    rw [createFromVariant_some_snd n variant hsome, hid]
    have h7 : (7 : Int) ≤ max n 7 := le_max_right n 7
    simp only [autoAssignId]
    omega

/-- C6 witness: with counter 0, loading the record with id 7 advances the
counter and the next auto-assigned id is at least 8. -/
theorem C6_witness :
    8 ≤ (autoAssignId (PropertyType.createFromVariant 0 rec7).2).1
    ∧ (0 : Int) ≤ (PropertyType.createFromVariant 0 rec7).2 := by
  have h := C6_theorem 0 rec7
  exact ⟨h.2.2.2 rfl rfl, h.1⟩

/-- A variant is invalid exactly when isValid is false. -/
theorem isValid_eq_false_iff (v : Variant) : v.isValid = false ↔ v = .invalid := by
  cases v <;> simp [Variant.isValid]

/-- A value that is no mapping converts to the empty map. -/
theorem toMap_eq_nil (v : Variant) (hv : ∀ m, v ≠ .vMap m) : v.toMap = [] := by
  cases v <;> first | rfl | exact (hv _ rfl).elim

/-- C10: for a class type, toPropertyValue on any input that is not a
mapping returns the empty mapping wrapped with the class's id — the
non-mapping payload is discarded — while an enum type wraps the same
(non-string) input unchanged. -/
theorem C10_theorem (fuel : Nat) (ctx : ExportContext) (t : PropertyType) (c : ClassData)
    (hk : t.kind = .ptClass c) (v : Variant) (hv : ∀ m, v ≠ .vMap m) :
    t.toPropertyValue fuel ctx v = .pval (.vMap []) t.id
    ∧ ∀ (t' : PropertyType) (e : EnumData), t'.kind = .ptEnum e →
        (∀ s, v ≠ .vString s) → t'.toPropertyValue fuel ctx v = .pval v t'.id := by
  have hmap : v.toMap = [] := toMap_eq_nil v hv
  constructor
  · unfold PropertyType.toPropertyValue
    rw [hk]
    simp only [hmap, List.map_nil]
    rfl
  · intro t' e hk' hs
    unfold PropertyType.toPropertyValue
    rw [hk']
    cases v <;> first | exact (hs _ rfl).elim | rfl

/-- C10 witness: an integer input to the class type yields the wrapped
empty mapping; the same input to an enum type is wrapped unchanged. -/
theorem C10_witness :
    sampleClassT.toPropertyValue 0 emptyCtx (.vInt 3) = .pval (.vMap []) sampleClassT.id
    ∧ idxEnum.toPropertyValue 0 emptyCtx (.vInt 3) = .pval (.vInt 3) idxEnum.id := by
  have h := C10_theorem 0 emptyCtx sampleClassT ⟨[("a".toList, .vInt 0)]⟩ rfl (.vInt 3)
    (fun m hm => nomatch hm)
  exact ⟨h.1, h.2 idxEnum ⟨.StringValue, ["A".toList, "B".toList], false⟩ rfl
    (fun s hs => nomatch hs)⟩

/-- C1 is false on the code: a key of the instance mapping that is not
declared in the class's members is not dropped — the `continue` in the
conversion loop leaves the entry in the mapping with its value unchanged.
Here the class declaring only member `a` converts the mapping with the
sole stale key `z`, and the result still contains `z`. -/
theorem C1_counterexample :
    qmapValue sampleClassT.classMembers "z".toList = .invalid
    ∧ sampleClassT.toPropertyValue 1 emptyCtx (.vMap [("z".toList, .vInt 5)]) =
        .pval (.vMap [("z".toList, .vInt 5)]) sampleClassT.id := by
  constructor
  · rfl
  · simp [sampleClassT, PropertyType.toPropertyValue, Variant.toMap, qmapValue,
      Variant.isValid, PropertyType.wrap, ExportContext.toPropertyValueHinted,
      Variant.userType, PropertyTypes.findTypeById, emptyCtx]

/-- C1 (amended): for a class type, toPropertyValue converts the input
mapping key-by-key, preserving the key set; a key present in the input
but absent from the class's members is kept in the resulting wrapped
mapping with its value unchanged (ignored, not converted), and no error
is raised. -/
theorem C1_theorem (fuel : Nat) (ctx : ExportContext) (t : PropertyType) (c : ClassData)
    (hk : t.kind = .ptClass c) (entries : List (QString × Variant)) :
    ∃ out : List (QString × Variant),
      t.toPropertyValue fuel ctx (.vMap entries) = .pval (.vMap out) t.id
      ∧ out.map Prod.fst = entries.map Prod.fst
      ∧ (∀ kv ∈ entries, qmapValue c.members kv.1 = .invalid → kv ∈ out) := by
  unfold PropertyType.toPropertyValue
  rw [hk]
  refine ⟨_, rfl, ?_, ?_⟩
  · rw [List.map_map]
    apply List.map_congr_left
    intro kv _
    dsimp only [Function.comp]
    split
    · rfl
    · rfl
  · intro kv hmem hstale
    have hconv :
        (fun kv : QString × Variant =>
          let classMember := qmapValue c.members kv.1
          if classMember.isValid = false then kv
          else
            let propertyValue := ctx.toPropertyValueHinted kv.2 classMember.userType
            let propertyValue :=
              match classMember with
              | .pval _ typeId =>
                match ctx.types.findTypeById typeId with
                | some propertyType =>
                  match fuel with
                  | 0 => propertyValue
                  | fuel' + 1 => propertyType.toPropertyValue fuel' ctx propertyValue
                | none => propertyValue
              | _ => propertyValue
            (kv.1, propertyValue)) kv = kv := by
      dsimp only
      rw [hstale]
      rfl
    rw [Variant.toMap]
    rw [← hconv]
    exact List.mem_map_of_mem _ hmem

/-- C1 witness: converting the single-entry mapping with the stale key z
through the class declaring only member a. -/
theorem C1_witness :
    ∃ out : List (QString × Variant),
      sampleClassT.toPropertyValue 1 emptyCtx (.vMap [("z".toList, .vInt 5)]) =
        .pval (.vMap out) sampleClassT.id
      ∧ out.map Prod.fst = [("z".toList, Variant.vInt 5)].map Prod.fst
      ∧ (∀ kv ∈ [("z".toList, Variant.vInt 5)],
          qmapValue (ClassData.mk [("a".toList, .vInt 0)]).members kv.1 = .invalid →
          kv ∈ out) :=
  C1_theorem 1 emptyCtx sampleClassT ⟨[("a".toList, .vInt 0)]⟩ rfl
    [("z".toList, .vInt 5)]

/-- The flag-reconstruction loop expressed through lookupAll: it fails
exactly when some segment's lookup fails, and otherwise ORs `1 << index`
over all found indices onto the accumulator. -/
theorem accumFlags_eq (values : List QString) :
    ∀ (segs : List QString) (acc : Int),
      accumFlags values segs acc =
        (lookupAll values segs).map
          (fun idxs => idxs.foldl (fun f i => Int.lor f (Int.ofNat (1 <<< i))) acc) := by
  intro segs
  induction segs with
  | nil => intro acc; rfl
  | cons sv rest ih =>
    intro acc
    cases h : idxOf? values sv with
    | none => simp [accumFlags, h, lookupAll]
    | some i =>
      cases h2 : lookupAll values rest with
      | none => simp [accumFlags, h, lookupAll, ih, h2]
      | some is => simp [accumFlags, h, lookupAll, ih, h2]

/-- C2: for a flags enum, toPropertyValue splits the string on commas
dropping empty segments and looks up every segment: if any lookup fails
the original string is wrapped unchanged (never a partial mask), and if
every lookup succeeds the OR-combination of `1 << index` over all found
segments is wrapped. -/
theorem C2_theorem (t : PropertyType) (e : EnumData) (hk : t.kind = .ptEnum e)
    (hflags : e.valuesAsFlags = true) (ctx : ExportContext) (fuel : Nat) (s : QString) :
    (lookupAll e.values (splitSkipEmpty s) = none →
        t.toPropertyValue fuel ctx (.vString s) = .pval (.vString s) t.id)
    ∧ (∀ idxs : List Nat, lookupAll e.values (splitSkipEmpty s) = some idxs →
        t.toPropertyValue fuel ctx (.vString s) =
          .pval (.vInt (idxs.foldl (fun f i => Int.lor f (Int.ofNat (1 <<< i))) 0))
            t.id) := by
  constructor
  · intro hnone
    unfold PropertyType.toPropertyValue
    rw [hk]
    simp only [hflags, if_true]
    rw [accumFlags_eq, hnone]
    rfl
  · intro idxs hsome
    unfold PropertyType.toPropertyValue
    rw [hk]
    simp only [hflags, if_true]
    rw [accumFlags_eq, hsome]
    rfl

/-- C2 witness: with values A, B the string A,Z has an unrecognized
segment and is wrapped unchanged, while A,B reconstructs mask 3. -/
theorem C2_witness :
    sampleEnumAB.toPropertyValue 0 emptyCtx (.vString "A,Z".toList) =
      .pval (.vString "A,Z".toList) sampleEnumAB.id
    ∧ sampleEnumAB.toPropertyValue 0 emptyCtx (.vString "A,B".toList) =
      .pval (.vInt 3) sampleEnumAB.id := by
  have h1 := C2_theorem sampleEnumAB
    ⟨.StringValue, ["A".toList, "B".toList], true⟩ rfl rfl emptyCtx 0 "A,Z".toList
  have h2 := C2_theorem sampleEnumAB
    ⟨.StringValue, ["A".toList, "B".toList], true⟩ rfl rfl emptyCtx 0 "A,B".toList
  refine ⟨h1.1 (by decide), ?_⟩
  rw [h2.2 [0, 1] (by decide)]
  rfl

/-- getD at an in-range index is get. -/
theorem getD_eq_get_of_lt (l : List QString) (i : Nat) (d : QString)
    (h : i < l.length) : l.getD i d = l.get ⟨i, h⟩ := by
  induction l generalizing i with
  | nil => cases h
  | cons a rest ih =>
    cases i with
    | zero => rfl
    | succ j => exact ih j (Nat.lt_of_succ_lt_succ h)

/-- In a duplicate-free list, looking up the element at index i finds
exactly index i. -/
theorem idxOf?_get (values : List QString) (hnodup : values.Nodup) (i : Nat)
    (hi : i < values.length) :
    idxOf? values (values.get ⟨i, hi⟩) = some i := by
  induction values generalizing i with
  | nil => cases hi
  | cons v rest ih =>
    rw [List.nodup_cons] at hnodup
    cases i with
    | zero => simp [idxOf?]
    | succ j =>
      have hj : j < rest.length := Nat.lt_of_succ_lt_succ hi
      have hget : (v :: rest).get ⟨j + 1, hi⟩ = rest.get ⟨j, hj⟩ := rfl
      rw [hget]
      unfold idxOf?
      rw [if_neg (fun he : v = rest.get ⟨j, hj⟩ =>
        hnodup.1 (he ▸ List.get_mem rest j hj)), ih hnodup.2 j hj]
      rfl

/-- C7 is false on the code as stated: for the enum with the duplicated
name A at indices 0 and 1 (string storage, flags off), the valid index 1
round-trips to the wrapped index 0, not 1 — the exported name A is looked
up to its first occurrence. -/
theorem C7_counterexample :
    dupEnum.toPropertyValue 0 emptyCtx
        ((dupEnum.toExportValue emptyCtx (.vInt 1)).value) =
      .pval (.vInt 0) dupEnum.id
    ∧ Variant.pval (.vInt 0) dupEnum.id ≠ .pval (.vInt 1) dupEnum.id := by
  constructor
  · simp [dupEnum, PropertyType.toExportValue, PropertyType.baseToExportValue,
      ExportContext.toExportValue, PropertyType.toPropertyValue, idxOf?,
      PropertyType.wrap, Variant.toQString]
  · simp

/-- C7 (amended): for every enum with valuesAsFlags false whose values
contain no duplicate names, and every valid index i,
toPropertyValue(toExportValue(wrap(i))) round-trips to the wrapped
integer index i. -/
theorem C7_theorem (t : PropertyType) (e : EnumData) (hk : t.kind = .ptEnum e)
    (hflags : e.valuesAsFlags = false) (hnodup : e.values.Nodup)
    (ctx : ExportContext) (fuel : Nat) (i : Nat) (hi : i < e.values.length) :
    t.toPropertyValue fuel ctx
        ((t.toExportValue ctx (.vInt (Int.ofNat i))).value) =
      .pval (.vInt (Int.ofNat i)) t.id := by
  cases hst : e.storageType with
  | IntValue =>
    have hval : (t.toExportValue ctx (.vInt (Int.ofNat i))).value =
        .vInt (Int.ofNat i) := by
      unfold PropertyType.toExportValue
      rw [hk]
      simp [hst, PropertyType.baseToExportValue, ExportContext.toExportValue]
    rw [hval]
    unfold PropertyType.toPropertyValue
    rw [hk]
    rfl
  | StringValue =>
    have hrange : (0 : Int) ≤ Int.ofNat i ∧ Int.ofNat i < (e.values.length : Int) := by
      constructor
      · exact Int.ofNat_nonneg i
      · rw [Int.ofNat_eq_natCast]
        exact_mod_cast hi
    have hval : (t.toExportValue ctx (.vInt (Int.ofNat i))).value =
        .vString (e.values.get ⟨i, hi⟩) := by
      unfold PropertyType.toExportValue
      rw [hk]
      simp only [hst, hflags, if_pos rfl, Bool.false_eq_true, if_false, if_pos hrange]
      rw [show (Int.ofNat i).toNat = i from rfl,
        getD_eq_get_of_lt e.values i [] hi]
      rfl
    rw [hval]
    unfold PropertyType.toPropertyValue
    rw [hk]
    simp only [hflags, Bool.false_eq_true, if_false]
    rw [idxOf?_get e.values hnodup i hi]
    rfl

/-- C7 witness: index 1 of the duplicate-free enum with values A, B
round-trips through export and import. -/
theorem C7_witness :
    idxEnum.toPropertyValue 0 emptyCtx
        ((idxEnum.toExportValue emptyCtx (.vInt (Int.ofNat 1))).value) =
      .pval (.vInt (Int.ofNat 1)) idxEnum.id :=
  C7_theorem idxEnum ⟨.StringValue, ["A".toList, "B".toList], false⟩ rfl rfl
    (by decide) emptyCtx 0 1 (by decide)

/-- A candidate that (transitively) reaches a member wrapped with the
self type's id is rejected, given fuel at least the chain length. -/
theorem canAdd_eq_false_of_reaches (reg : PropertyTypes) (self : PropertyType) :
    ∀ (n : Nat) (cand : PropertyType), ReachesMemberTyped reg self.id cand n →
      ∀ fuel, n ≤ fuel →
        PropertyType.canAddMemberOfType reg fuel self cand = false := by
  intro n cand hreach
  induction hreach with
  | direct t c k v typeId u hk hmem hfind hid =>
    intro fuel hfuel
    by_cases hid2 : t.id = self.id
    · unfold PropertyType.canAddMemberOfType
      rw [if_pos hid2]
    · obtain ⟨fuel', rfl⟩ : ∃ f, fuel = f + 1 := ⟨fuel - 1, by omega⟩
      unfold PropertyType.canAddMemberOfType
      rw [if_neg hid2, hk]
      refine List.all_eq_false.mpr ⟨(k, .pval v typeId), hmem, ?_⟩
      dsimp only
      rw [hfind]
      have hu : PropertyType.canAddMemberOfType reg fuel' self u = false := by
        unfold PropertyType.canAddMemberOfType
        rw [if_pos hid]
      show ¬PropertyType.canAddMemberOfType reg fuel' self u = true
      rw [hu]
      exact Bool.false_ne_true
  | step t c k v typeId u n hk hmem hfind hsub ih =>
    intro fuel hfuel
    by_cases hid2 : t.id = self.id
    · unfold PropertyType.canAddMemberOfType
      rw [if_pos hid2]
    · obtain ⟨fuel', rfl⟩ : ∃ f, fuel = f + 1 := ⟨fuel - 1, by omega⟩
      unfold PropertyType.canAddMemberOfType
      rw [if_neg hid2, hk]
      refine List.all_eq_false.mpr ⟨(k, .pval v typeId), hmem, ?_⟩
      dsimp only
      rw [hfind]
      show ¬PropertyType.canAddMemberOfType reg fuel' self u = true
      rw [ih fuel' (by omega)]
      exact Bool.false_ne_true

/-- C5: canAddMemberOfType rejects the class itself; accepts every
candidate that is not of Class kind (and is not the class itself, the
model's reading of pointer inequality); and rejects a class B containing
a member typed as class A whenever A transitively contains a member typed
as the class under test. -/
theorem C5_theorem (reg : PropertyTypes) :
    (∀ (fuel : Nat) (t : PropertyType),
        PropertyType.canAddMemberOfType reg fuel t t = false)
    ∧ (∀ (fuel : Nat) (self cand : PropertyType), cand.type ≠ .PT_Class →
        cand.id ≠ self.id →
        PropertyType.canAddMemberOfType reg fuel self cand = true)
    ∧ (∀ (fuel n : Nat) (self b a : PropertyType) (cb : ClassData)
        (k : QString) (v : Variant) (tid : Int),
        b.kind = .ptClass cb → (k, .pval v tid) ∈ cb.members →
        reg.findTypeById tid = some a →
        ReachesMemberTyped reg self.id a n →
        n + 1 ≤ fuel →
        PropertyType.canAddMemberOfType reg fuel self b = false) := by
  refine ⟨?_, ?_, ?_⟩
  · intro fuel t
    unfold PropertyType.canAddMemberOfType
    rw [if_pos rfl]
  · intro fuel self cand htype hne
    unfold PropertyType.canAddMemberOfType
    rw [if_neg hne]
    cases hk2 : cand.kind with
    | ptEnum e => rfl
    | ptClass c =>
      exfalso
      apply htype
      unfold PropertyType.type
      rw [hk2]
  · intro fuel n self b a cb k v tid hb hmem hfind hreach hfuel
    exact canAdd_eq_false_of_reaches reg self (n + 1) b
      (.step b cb k v tid a n hb hmem hfind hreach) fuel hfuel

/-- C5 witness: in the concrete registry, class T rejects itself, accepts
the enum E, and rejects class B whose member is typed as class A whose
member is in turn typed as T. -/
theorem C5_witness :
    PropertyType.canAddMemberOfType cycReg 3 cycT cycT = false
    ∧ PropertyType.canAddMemberOfType cycReg 1 cycT cycE = true
    ∧ PropertyType.canAddMemberOfType cycReg 2 cycT cycB = false := by
  have h := C5_theorem cycReg
  refine ⟨h.1 3 cycT, h.2.1 1 cycT cycE (by decide) (by decide), ?_⟩
  exact h.2.2 2 1 cycT cycB cycA ⟨[("m".toList, .pval (.vMap []) 11)]⟩
    "m".toList (.vMap []) 11 rfl (List.Mem.head _) rfl
    (ReachesMemberTyped.direct cycA ⟨[("m".toList, .pval (.vMap []) 10)]⟩
      "m".toList (.vMap []) 10 cycT rfl (List.Mem.head _) rfl rfl)
    (by omega)

/-- The parse phase keeps exactly the records the factory accepts, in
input order (the factory's acceptance does not depend on the threaded
counter). -/
theorem parseRecords_fst (recs : List Variant) :
    ∀ n : Int, (parseRecords n recs).1 =
      recs.filterMap (fun r => (PropertyType.createFromVariant 0 r.toMap).1) := by
  induction recs with
  | nil => intro n; rfl
  | cons r rest ih =>
    intro n
    have hfst := createFromVariant_fst_counter 0 n r.toMap
    rcases hcv : PropertyType.createFromVariant n r.toMap with ⟨o, n1⟩
    rw [hcv] at hfst
    cases o with
    | some t => simp [parseRecords, hcv, List.filterMap_cons, hfst, ih n1]
    | none => simp [parseRecords, hcv, List.filterMap_cons, hfst, ih n1]

/-- Dependency resolution only rewrites class members; id and name are
untouched. -/
theorem resolveDependencies_id_name (fuel : Nat) (t : PropertyType)
    (ctx : ExportContext) :
    (t.resolveDependencies fuel ctx).id = t.id
    ∧ (t.resolveDependencies fuel ctx).name = t.name := by
  cases hk : t.kind <;> simp [PropertyType.resolveDependencies, hk]

/-- The resolve loop preserves the ids and names of the registry, in
order. -/
theorem resolveLoop_map_idname (fuel : Nat) (path : QString) :
    ∀ (todo done : List PropertyType),
      (resolveLoop fuel path done todo).map (fun t => (t.id, t.name)) =
        done.map (fun t => (t.id, t.name)) ++ todo.map (fun t => (t.id, t.name)) := by
  intro todo
  induction todo with
  | nil => intro done; simp [resolveLoop]
  | cons t rest ih =>
    intro done
    rw [resolveLoop, ih]
    simp [resolveDependencies_id_name]

/-- Any registry locates each of its own elements by id: the linear scan
returns a (first-match) type carrying the looked-up id. -/
theorem findTypeById_mem (reg : PropertyTypes) (t : PropertyType)
    (h : t ∈ reg.mTypes) :
    ∃ u, reg.findTypeById t.id = some u ∧ u.id = t.id := by
  unfold PropertyTypes.findTypeById
  have hsome : (reg.mTypes.find? (fun x => decide (x.id = t.id))).isSome :=
    List.find?_isSome.mpr ⟨t, h, by simp⟩
  obtain ⟨u, hu⟩ := Option.isSome_iff_exists.mp hsome
  have hp := List.find?_some hu
  exact ⟨u, hu, by simpa using hp⟩

/-- Any registry locates each of its own elements by name. -/
theorem findTypeByName_mem (reg : PropertyTypes) (t : PropertyType)
    (h : t ∈ reg.mTypes) :
    ∃ u, reg.findTypeByName t.name = some u ∧ u.name = t.name := by
  unfold PropertyTypes.findTypeByName
  have hsome : (reg.mTypes.find? (fun x => decide (x.name = t.name))).isSome :=
    List.find?_isSome.mpr ⟨t, h, by simp⟩
  obtain ⟨u, hu⟩ := Option.isSome_iff_exists.mp hsome
  have hp := List.find?_some hu
  exact ⟨u, hu, by simpa using hp⟩

/-- C3: loadFrom clears the previously owned types; keeps, in input
order, exactly the records the factory accepts (unknown-type records are
absent, so the count equals the number of valid records); lookups by id
and by name succeed for every loaded record; and dependency resolution
runs only after all valid records are added, so a class member
referencing a class defined later in the input list still resolves (the
concrete forward-reference load of records B then A resolves B's member
to a value wrapped with A's id). -/
theorem C3_theorem (recs : List Variant) (path : QString) (n : Int) (fuel : Nat)
    (reg0 : PropertyTypes) :
    (∀ reg1 : PropertyTypes,
        PropertyTypes.loadFrom reg1 n fuel recs path =
          PropertyTypes.loadFrom reg0 n fuel recs path)
    ∧ ((PropertyTypes.loadFrom reg0 n fuel recs path).1.mTypes.map
          (fun t => (t.id, t.name)) =
        (recs.filterMap (fun r => (PropertyType.createFromVariant 0 r.toMap).1)).map
          (fun t => (t.id, t.name)))
    ∧ ((PropertyTypes.loadFrom reg0 n fuel recs path).1.mTypes.length =
        (recs.filter (fun r =>
          decide (PropertyType.typeFromString
            ((qmapValue r.toMap "type".toList).toQString) ≠ .PT_Invalid))).length)
    ∧ (∀ t ∈ (PropertyTypes.loadFrom reg0 n fuel recs path).1.mTypes,
        (∃ u, (PropertyTypes.loadFrom reg0 n fuel recs path).1.findTypeById t.id =
            some u ∧ u.id = t.id)
        ∧ (∃ u, (PropertyTypes.loadFrom reg0 n fuel recs path).1.findTypeByName
            t.name = some u ∧ u.name = t.name))
    ∧ (∃ cB : ClassData,
        (PropertyTypes.loadFrom ⟨[]⟩ 0 1 [sampleRecB, sampleRecA] []).1.findTypeByName
            "B".toList =
          some { id := 2, name := "B".toList, kind := .ptClass cB }
        ∧ qmapValue cB.members "m".toList = .pval (.vMap []) 1) := by
  have hmap : (PropertyTypes.loadFrom reg0 n fuel recs path).1.mTypes.map
      (fun t => (t.id, t.name)) =
      (recs.filterMap (fun r => (PropertyType.createFromVariant 0 r.toMap).1)).map
        (fun t => (t.id, t.name)) := by
    unfold PropertyTypes.loadFrom
    rw [resolveLoop_map_idname, parseRecords_fst]
    rfl
  refine ⟨fun reg1 => rfl, hmap, ?_, ?_, ?_⟩
  · have hlen := congrArg List.length hmap
    rw [List.length_map, List.length_map] at hlen
    rw [hlen, List.length_filterMap_eq_countP, List.countP_eq_length_filter]
    congr 1
    apply List.filter_congr
    intro r _
    by_cases hinv : PropertyType.typeFromString
        ((qmapValue r.toMap "type".toList).toQString) = .PT_Invalid
    · rw [createFromVariant_invalid_eq 0 _ hinv]
      exact (decide_eq_false (not_not_intro hinv)).symm
    · have hs := (createFromVariant_isSome_iff 0 r.toMap).mpr hinv
      rw [hs]
      exact (decide_eq_true hinv).symm
  · intro t ht
    exact ⟨findTypeById_mem _ t ht, findTypeByName_mem _ t ht⟩
  · refine ⟨⟨[("m".toList, .pval (.vMap []) 1)]⟩, ?_, rfl⟩
    rfl

/-- C3 witness: the forward-reference load of records B then A keeps both
records (count 2), locates them by name, and resolves B's member to a
value wrapped with A's id. -/
theorem C3_witness :
    ((PropertyTypes.loadFrom ⟨[]⟩ 0 1 [sampleRecB, sampleRecA] []).1.mTypes.length =
      ([sampleRecB, sampleRecA].filter (fun r =>
        decide (PropertyType.typeFromString
          ((qmapValue r.toMap "type".toList).toQString) ≠ .PT_Invalid))).length)
    ∧ (∃ cB : ClassData,
        (PropertyTypes.loadFrom ⟨[]⟩ 0 1 [sampleRecB, sampleRecA] []).1.findTypeByName
            "B".toList =
          some { id := 2, name := "B".toList, kind := .ptClass cB }
        ∧ qmapValue cB.members "m".toList = .pval (.vMap []) 1) := by
  have h := C3_theorem [sampleRecB, sampleRecA] [] 0 1 ⟨[]⟩
  exact ⟨h.2.2.1, h.2.2.2.2⟩

/-- The C++ truthiness test of the flag-export loop in terms of testBit:
`intValue & (1 << i)` is nonzero exactly when bit i is set. -/
theorem int_land_ne_zero_iff (f i : Nat) :
    Int.land (Int.ofNat f) (Int.ofNat (1 <<< i)) ≠ 0 ↔ f.testBit i = true := by
  have h1 : Int.land (Int.ofNat f) (Int.ofNat (1 <<< i)) =
      Int.ofNat (f &&& (1 <<< i)) := rfl
  rw [h1, Ne, Int.ofNat_eq_natCast, Int.natCast_eq_zero, Nat.shiftLeft_eq, one_mul,
    Nat.and_two_pow]
  cases hb : f.testBit i <;> simp [hb]

/-- A fold that acts only on elements satisfying p is the fold over the
filtered list. -/
theorem foldl_ite_filter {α β : Type} (p : α → Bool) (g : β → α → β) :
    ∀ (l : List α) (a : β),
      l.foldl (fun acc x => if p x then g acc x else acc) a =
        (l.filter p).foldl g a := by
  intro l
  induction l with
  | nil => intro a; rfl
  | cons x xs ih =>
    intro a
    rw [List.foldl_cons, List.filter_cons]
    by_cases hp : p x <;> simp [hp, ih]

/-- The comma-append fold from a nonempty accumulator: each further name
contributes one separator and its text. -/
theorem foldCA_acc :
    ∀ (names : List QString) (acc : QString), acc ≠ [] →
      names.foldl (fun sv nm => (if sv = [] then sv else sv ++ [',']) ++ nm) acc =
        acc ++ preC names := by
  intro names
  induction names with
  | nil => intro acc hacc; simp [preC]
  | cons nm rest ih =>
    intro acc hacc
    rw [List.foldl_cons, if_neg hacc, ih ((acc ++ [',']) ++ nm) (by simp)]
    simp [preC]

/-- The comma-append fold from the empty accumulator builds the comma-join
of the names, provided the names are nonempty strings. -/
theorem foldCA_join (names : List QString) (hne : ∀ nm ∈ names, nm ≠ []) :
    names.foldl (fun sv nm => (if sv = [] then sv else sv ++ [',']) ++ nm) [] =
      joinC names := by
  cases names with
  | nil => rfl
  | cons nm rest =>
    rw [List.foldl_cons, if_pos rfl, List.nil_append,
      foldCA_acc rest nm (hne nm (List.mem_cons_self nm rest))]
    rfl

/-- The flag-export loop produces the comma-join of the names whose bit is
set, in ascending index order. -/
theorem flagsToExportString_eq_joinC (values : List QString) (f : Nat)
    (hne : ∀ v ∈ values, v ≠ []) :
    flagsToExportString values (Int.ofNat f) =
      joinC (((List.range values.length).filter (fun i => f.testBit i)).map
        (fun i => values.getD i [])) := by
  unfold flagsToExportString
  have hcond : (fun (sv : QString) (i : Nat) =>
      if Int.land (Int.ofNat f) (Int.ofNat (1 <<< i)) ≠ 0 then
        (if sv = [] then sv else sv ++ [',']) ++ values.getD i []
      else sv)
      = (fun (sv : QString) (i : Nat) =>
        if f.testBit i then
          (if sv = [] then sv else sv ++ [',']) ++ values.getD i []
        else sv) := by
    funext sv i
    exact if_congr (int_land_ne_zero_iff f i) rfl rfl
  rw [hcond, foldl_ite_filter (fun i => f.testBit i)
    (fun sv i => (if sv = [] then sv else sv ++ [',']) ++ values.getD i [])]
  rw [← List.foldl_map (fun i => values.getD i [])
    (fun sv nm => (if sv = [] then sv else sv ++ [',']) ++ nm)]
  apply foldCA_join
  intro nm hnm
  obtain ⟨i, hi, rfl⟩ := List.mem_map.mp hnm
  have hilen : i < values.length := List.mem_range.mp (List.mem_filter.mp hi).1
  rw [getD_eq_get_of_lt values i [] hilen]
  exact hne _ (List.get_mem values i hilen)

/-- Splitting a comma-free string yields the single raw segment. -/
theorem splitComma_nocomma (s : QString) (h : ',' ∉ s) : splitComma s = [s] := by
  induction s with
  | nil => rfl
  | cons c rest ih =>
    have hc : ¬(c = ',') := fun hc => h (hc ▸ List.mem_cons_self c rest)
    have hrest : ',' ∉ rest := fun hr => h (List.mem_cons_of_mem c hr)
    unfold splitComma
    rw [if_neg hc, ih hrest]

/-- Splitting past a comma-free prefix peels it off as the first
segment. -/
theorem splitComma_comma_append (nm : QString) (h : ',' ∉ nm) :
    ∀ t : QString, splitComma (nm ++ ',' :: t) = nm :: splitComma t := by
  induction nm with
  | nil =>
    intro t
    show splitComma (',' :: t) = [] :: splitComma t
    simp [splitComma]
  | cons c nm' ih =>
    have hc : ¬(c = ',') := fun hc => h (hc ▸ List.mem_cons_self c nm')
    have hnm' : ',' ∉ nm' := fun hr => h (List.mem_cons_of_mem c hr)
    intro t
    show splitComma (c :: (nm' ++ ',' :: t)) = (c :: nm') :: splitComma t
    simp only [splitComma]
    rw [if_neg hc, ih hnm' t]

/-- Splitting the comma-join of nonempty, comma-free names and dropping
empty segments recovers exactly the names. -/
theorem splitSkipEmpty_joinC :
    ∀ names : List QString, (∀ nm ∈ names, nm ≠ [] ∧ ',' ∉ nm) →
      splitSkipEmpty (joinC names) = names := by
  intro names
  induction names with
  | nil => intro h; rfl
  | cons nm rest ih =>
    intro h
    have hnm := h nm (List.mem_cons_self nm rest)
    cases rest with
    | nil =>
      show splitSkipEmpty (joinC [nm]) = [nm]
      have hj : joinC [nm] = nm := by simp [joinC, preC]
      rw [hj]
      unfold splitSkipEmpty
      rw [splitComma_nocomma nm hnm.2]
      simp [hnm.1]
    | cons nm2 rest' =>
      have hrest : ∀ x ∈ nm2 :: rest', x ≠ [] ∧ ',' ∉ x :=
        fun x hx => h x (List.mem_cons_of_mem nm hx)
      have hj : joinC (nm :: nm2 :: rest') = nm ++ ',' :: joinC (nm2 :: rest') := by
        simp [joinC, preC]
      rw [hj]
      unfold splitSkipEmpty
      rw [splitComma_comma_append nm hnm.2]
      rw [List.filter_cons]
      have : (decide ¬(nm = [])) = true := by simp [hnm.1]
      rw [if_pos (by simp [hnm.1])]
      have htail := ih hrest
      unfold splitSkipEmpty at htail
      rw [htail]

/-- Looking up the names taken at duplicate-free indices finds exactly
those indices. -/
theorem lookupAll_map_getD (values : List QString) (hnodup : values.Nodup) :
    ∀ idxs : List Nat, (∀ i ∈ idxs, i < values.length) →
      lookupAll values (idxs.map (fun i => values.getD i [])) = some idxs := by
  intro idxs
  induction idxs with
  | nil => intro h; rfl
  | cons i rest ih =>
    intro h
    have hi : i < values.length := h i (List.mem_cons_self i rest)
    have hrest := ih (fun j hj => h j (List.mem_cons_of_mem i hj))
    show lookupAll values (values.getD i [] :: rest.map (fun i => values.getD i [])) =
      some (i :: rest)
    unfold lookupAll
    rw [getD_eq_get_of_lt values i [] hi, idxOf?_get values hnodup i hi, hrest]

/-- The Int-valued flag accumulation is the Nat-valued one under ofNat. -/
theorem foldl_lor_ofNat :
    ∀ (idxs : List Nat) (acc : Nat),
      idxs.foldl (fun a i => Int.lor a (Int.ofNat (1 <<< i))) (Int.ofNat acc) =
        Int.ofNat (idxs.foldl (fun a i => a ||| (1 <<< i)) acc) := by
  intro idxs
  induction idxs with
  | nil => intro acc; rfl
  | cons i rest ih =>
    intro acc
    rw [List.foldl_cons, List.foldl_cons]
    exact ih (acc ||| (1 <<< i))

/-- Bits of the OR-accumulation: a bit is set when it was set in the
accumulator or names one of the indices. -/
theorem foldl_or_testBit :
    ∀ (idxs : List Nat) (acc j : Nat),
      (idxs.foldl (fun a i => a ||| (1 <<< i)) acc).testBit j =
        (acc.testBit j || idxs.any (fun i => decide (i = j))) := by
  intro idxs
  induction idxs with
  | nil => intro acc j; simp
  | cons i rest ih =>
    intro acc j
    rw [List.foldl_cons, ih (acc ||| (1 <<< i)) j, Nat.testBit_lor]
    rw [Nat.shiftLeft_eq, one_mul, Nat.testBit_two_pow]
    simp [Bool.or_assoc]

/-- ORing `1 << i` over exactly the set bits of an in-range mask rebuilds
the mask. -/
theorem foldl_or_filter_range (f len : Nat) (hf : f < 2 ^ len) :
    ((List.range len).filter (fun i => f.testBit i)).foldl
        (fun a i => a ||| (1 <<< i)) 0 = f := by
  apply Nat.eq_of_testBit_eq
  intro j
  rw [foldl_or_testBit, Nat.zero_testBit, Bool.false_or]
  cases hbit : f.testBit j with
  | true =>
    have hjlen : j < len := by
      by_contra hge
      have h2 : f < 2 ^ j :=
        lt_of_lt_of_le hf (Nat.pow_le_pow_right (by omega) (by omega))
      rw [Nat.testBit_eq_false_of_lt h2] at hbit
      simp at hbit
    exact List.any_eq_true.mpr
      ⟨j, List.mem_filter.mpr ⟨List.mem_range.mpr hjlen, hbit⟩, by simp⟩
  | false =>
    apply List.any_eq_false.mpr
    intro i hi
    intro hdec
    have hij : i = j := of_decide_eq_true hdec
    subst hij
    have := (List.mem_filter.mp hi).2
    rw [hbit] at this
    cases this

/-- C8 (amended): for a flags enum with string storage whose value names
are duplicate-free, nonempty and comma-free, every bitmask f touching
only bits 0..len-1 round-trips through export (comma-joined set-bit
names, ascending) and import back to the wrapped bitmask f. -/
theorem C8_theorem (t : PropertyType) (e : EnumData) (hk : t.kind = .ptEnum e)
    (hflags : e.valuesAsFlags = true) (hstore : e.storageType = .StringValue)
    (hnodup : e.values.Nodup) (hne : ∀ v ∈ e.values, v ≠ [])
    (hnc : ∀ v ∈ e.values, ',' ∉ v)
    (ctx : ExportContext) (fuel : Nat) (f : Nat) (hf : f < 2 ^ e.values.length) :
    t.toPropertyValue fuel ctx
        ((t.toExportValue ctx (.vInt (Int.ofNat f))).value) =
      .pval (.vInt (Int.ofNat f)) t.id := by
  have hsel_lt : ∀ i ∈ (List.range e.values.length).filter (fun i => f.testBit i),
      i < e.values.length :=
    fun i hi => List.mem_range.mp (List.mem_filter.mp hi).1
  have hnames_prop : ∀ nm ∈ ((List.range e.values.length).filter
        (fun i => f.testBit i)).map (fun i => e.values.getD i []),
      nm ≠ [] ∧ ',' ∉ nm := by
    intro nm hnm
    obtain ⟨i, hi, rfl⟩ := List.mem_map.mp hnm
    have hilen : i < e.values.length := hsel_lt i hi
    rw [getD_eq_get_of_lt e.values i [] hilen]
    exact ⟨hne _ (List.get_mem _ i hilen), hnc _ (List.get_mem _ i hilen)⟩
  have hexp : (t.toExportValue ctx (.vInt (Int.ofNat f))).value =
      .vString (joinC (((List.range e.values.length).filter
        (fun i => f.testBit i)).map (fun i => e.values.getD i []))) := by
    have h1 : t.toExportValue ctx (.vInt (Int.ofNat f)) =
        t.baseToExportValue ctx
          (.vString (flagsToExportString e.values (Int.ofNat f))) := by
      unfold PropertyType.toExportValue
      rw [hk]
      simp [hstore, hflags]
    rw [h1, flagsToExportString_eq_joinC e.values f hne]
    rfl
  rw [hexp]
  unfold PropertyType.toPropertyValue
  rw [hk]
  simp only [hflags, if_true]
  rw [accumFlags_eq, splitSkipEmpty_joinC _ hnames_prop,
    lookupAll_map_getD e.values hnodup _ hsel_lt]
  have hfold : (((List.range e.values.length).filter (fun i => f.testBit i)).foldl
      (fun a i => Int.lor a (Int.ofNat (1 <<< i))) 0) = Int.ofNat f := by
    have h0 : (0 : Int) = Int.ofNat 0 := rfl
    rw [h0, foldl_lor_ofNat, foldl_or_filter_range f e.values.length hf]
  rw [Option.map_some', hfold]
  rfl

/-- C8 as stated is false on the code: with the single (duplicate-free)
value name A,B containing a comma, the bitmask 1 exports to the string
A,B whose re-import splits into the unknown segments A and B and wraps
the string unchanged instead of rebuilding the mask. -/
theorem C8_counterexample :
    commaEnum.toPropertyValue 0 emptyCtx
        ((commaEnum.toExportValue emptyCtx (.vInt 1)).value) =
      .pval (.vString "A,B".toList) commaEnum.id
    ∧ Variant.pval (.vString "A,B".toList) commaEnum.id ≠
        .pval (.vInt 1) commaEnum.id := by
  constructor
  · simp [commaEnum, PropertyType.toExportValue, PropertyType.baseToExportValue,
      ExportContext.toExportValue, flagsToExportString, PropertyType.toPropertyValue,
      splitSkipEmpty, splitComma, accumFlags, idxOf?, PropertyType.wrap,
      List.range_succ, emptyCtx]
    decide
  · simp

/-- C8 witness: with the duplicate-free, comma-free, nonempty names A and
B, the bitmask 3 round-trips through export and import. -/
theorem C8_witness :
    sampleEnumAB.toPropertyValue 0 emptyCtx
        ((sampleEnumAB.toExportValue emptyCtx (.vInt (Int.ofNat 3))).value) =
      .pval (.vInt (Int.ofNat 3)) sampleEnumAB.id :=
  C8_theorem sampleEnumAB ⟨.StringValue, ["A".toList, "B".toList], true⟩ rfl rfl rfl
    (by decide) (by decide) (by decide) emptyCtx 0 3 (by decide)

end Tiled
